import Mathlib

/- Shallow embedding of `ChatBot.clean_references` from
   src/RAG-GPT/src/utils/chatbot.py.

   Python strings are modelled as `List Char` (sequences of Unicode code
   points), bytes as `Nat`.  Fallible operations return `Option`.  Several
   Python standard-library routines used by the source (`re.sub` on literal
   patterns, `bytes(...).decode("unicode_escape")`, `str.encode('latin1')`,
   `bytes.decode('utf-8', 'ignore')`, `html.unescape`, `ast.literal_eval`,
   `os.path.basename`) are embedded below; each embedding's doc comment notes
   any restriction relative to CPython. -/

namespace RagGpt

/-- Model of Python's whitespace class: the set matched by the regex
class backslash-s on `str` patterns and stripped by `str.strip()`. -/
def pyIsSpace (c : Char) : Bool :=
  c == ' ' || c == '\t' || c == '\n' || c == '\x0b' || c == '\x0c' || c == '\r' ||
  c == '\x1c' || c == '\x1d' || c == '\x1e' || c == '\x1f' ||
  c == '\u0085' || c == ' ' || c.toNat == 0x1680 ||
  (0x2000 ≤ c.toNat && c.toNat ≤ 0x200a) ||
  c.toNat == 0x2028 || c.toNat == 0x2029 ||
  c.toNat == 0x202f || c.toNat == 0x205f || c.toNat == 0x3000

/-- `occursSub p s` decides whether `p` occurs as a contiguous substring of
`s` (at any position). -/
def occursSub (p : List Char) : List Char → Bool
  | [] => p.isEmpty
  | c :: t => p.isPrefixOf (c :: t) || occursSub p t

/-- Number of positions of `s` at which `p` occurs as a substring. -/
def countSub (p : List Char) : List Char → Nat
  | [] => if p.isEmpty then 1 else 0
  | c :: t => (if p.isPrefixOf (c :: t) then 1 else 0) + countSub p t

/-- Fuelled worker for `replaceAll`.  When the fuel is at least the length of
the input list, it performs leftmost non-overlapping replacement of the
literal pattern `p` by `r`, which is the behaviour of Python's
`re.sub(pat, repl, s)` for a pattern with no metacharacters. -/
def replaceAllF (p r : List Char) : Nat → List Char → List Char
  | _, [] => []
  | 0, s => s
  | f + 1, c :: t =>
    if p ≠ [] ∧ p.isPrefixOf (c :: t) then
      r ++ replaceAllF p r f (t.drop (p.length - 1))
    else
      c :: replaceAllF p r f t

/-- Leftmost non-overlapping replacement of the literal substring `p` by `r`:
the embedding of `re.sub` at a metacharacter-free pattern. -/
def replaceAll (p r : List Char) (s : List Char) : List Char :=
  replaceAllF p r s.length s

/-- Fuelled worker for `subWs`: replaces each maximal run of Python
whitespace by a single space, the behaviour of
`re.sub(r'backslash-s+', ' ', s)`. -/
def subWsF : Nat → List Char → List Char
  | _, [] => []
  | 0, s => s
  | f + 1, c :: t =>
    if pyIsSpace c then ' ' :: subWsF f (t.dropWhile pyIsSpace)
    else c :: subWsF f t

/-- Embedding of `re.sub(r'backslash-s+', ' ', s)`: every maximal whitespace
run becomes one space. -/
def subWs (s : List Char) : List Char := subWsF s.length s

/-- Drops all trailing Python whitespace, the right half of `str.strip()`. -/
def dropTrailingWs : List Char → List Char
  | [] => []
  | c :: t =>
    match dropTrailingWs t with
    | [] => if pyIsSpace c then [] else [c]
    | r => c :: r

/-- Embedding of `str.strip()`: removes leading and trailing whitespace. -/
def pyStrip (s : List Char) : List Char := dropTrailingWs (s.dropWhile pyIsSpace)

/-- Step 6 of the pipeline, line 110 of the source:
`re.sub(r'backslash-s+', ' ', content).strip()`. -/
def collapseWs (s : List Char) : List Char := pyStrip (subWs s)

/-- `goodRuns s` holds when no two adjacent characters of `s` are both
whitespace. -/
def goodRuns : List Char → Bool
  | [] => true
  | [_] => true
  | a :: b :: t => (!(pyIsSpace a && pyIsSpace b)) && goodRuns (b :: t)

/-- UTF-8 encoding of one Unicode scalar value. -/
def utf8EncodeChar (c : Char) : List Nat :=
  let n := c.toNat
  if n < 128 then [n]
  else if n < 2048 then [192 + n / 64, 128 + n % 64]
  else if n < 65536 then [224 + n / 4096, 128 + (n / 64) % 64, 128 + n % 64]
  else [240 + n / 262144, 128 + (n / 4096) % 64, 128 + (n / 64) % 64, 128 + n % 64]

/-- UTF-8 encoding of a string, the embedding of `bytes(s, "utf-8")`. -/
def utf8Encode (s : List Char) : List Nat := (s.map utf8EncodeChar).flatten

def hexVal (b : Nat) : Option Nat :=
  if 48 ≤ b ∧ b ≤ 57 then some (b - 48)
  else if 97 ≤ b ∧ b ≤ 102 then some (b - 87)
  else if 65 ≤ b ∧ b ≤ 70 then some (b - 55)
  else none

def octVal (b : Nat) : Option Nat :=
  if 48 ≤ b ∧ b ≤ 55 then some (b - 48) else none

/-- Fuelled worker for `uEsc`, the `bytes.decode("unicode_escape")` codec:
each byte is read as its Latin-1 code point except for backslash escape
sequences, which are resolved (newline, tab, octal, hex, unicode escapes;
an unknown escape keeps the backslash and the following character, as
CPython does).  A trailing lone backslash or a malformed hex/unicode escape
is an error (`none`).  Restrictions relative to CPython: a name escape
(backslash-N) and a surrogate unicode escape are mapped to `none`; in the
surrogate case CPython would instead produce a lone surrogate that the
later strict `latin1` encode of the pipeline rejects, so the whole call
aborts either way. -/
def uEscF : Nat → List Nat → Option (List Char)
  | 0, _ => none
  | _, [] => some []
  | f + 1, b :: t =>
    if b ≠ 92 then (uEscF f t).map (fun l => Char.ofNat b :: l)
    else
      match t with
      | [] => none
      | e :: t' =>
        if e = 110 then (uEscF f t').map (fun l => '\n' :: l)
        else if e = 116 then (uEscF f t').map (fun l => '\t' :: l)
        else if e = 114 then (uEscF f t').map (fun l => '\r' :: l)
        else if e = 98 then (uEscF f t').map (fun l => '\x08' :: l)
        else if e = 102 then (uEscF f t').map (fun l => '\x0c' :: l)
        else if e = 118 then (uEscF f t').map (fun l => '\x0b' :: l)
        else if e = 97 then (uEscF f t').map (fun l => '\x07' :: l)
        else if e = 92 then (uEscF f t').map (fun l => '\\' :: l)
        else if e = 39 then (uEscF f t').map (fun l => '\'' :: l)
        else if e = 34 then (uEscF f t').map (fun l => '"' :: l)
        else if e = 10 then uEscF f t'
        else if e = 120 then
          match t' with
          | h1 :: h2 :: t2 =>
            match hexVal h1, hexVal h2 with
            | some a, some b2 => (uEscF f t2).map (fun l => Char.ofNat (16 * a + b2) :: l)
            | _, _ => none
          | _ => none
        else if e = 117 then
          match t' with
          | h1 :: h2 :: h3 :: h4 :: t2 =>
            match hexVal h1, hexVal h2, hexVal h3, hexVal h4 with
            | some a, some b2, some c, some d =>
              let v := 4096 * a + 256 * b2 + 16 * c + d
              if 0xd800 ≤ v ∧ v ≤ 0xdfff then none
              else (uEscF f t2).map (fun l => Char.ofNat v :: l)
            | _, _, _, _ => none
          | _ => none
        else if e = 85 then
          match t' with
          | h1 :: h2 :: h3 :: h4 :: h5 :: h6 :: h7 :: h8 :: t2 =>
            match hexVal h1, hexVal h2, hexVal h3, hexVal h4 with
            | some a, some b2, some c, some d =>
              match hexVal h5, hexVal h6, hexVal h7, hexVal h8 with
              | some a2, some b3, some c2, some d2 =>
                let v := ((4096 * a + 256 * b2 + 16 * c + d) * 65536) +
                  (4096 * a2 + 256 * b3 + 16 * c2 + d2)
                if v > 0x10ffff ∨ (0xd800 ≤ v ∧ v ≤ 0xdfff) then none
                else (uEscF f t2).map (fun l => Char.ofNat v :: l)
              | _, _, _, _ => none
            | _, _, _, _ => none
          | _ => none
        else if e = 78 then none
        else
          match octVal e with
          | some o1 =>
            match t' with
            | d2 :: t2 =>
              match octVal d2 with
              | some o2 =>
                match t2 with
                | d3 :: t3 =>
                  match octVal d3 with
                  | some o3 => (uEscF f t3).map (fun l => Char.ofNat (64 * o1 + 8 * o2 + o3) :: l)
                  | none => (uEscF f t2).map (fun l => Char.ofNat (8 * o1 + o2) :: l)
                | [] => (uEscF f t2).map (fun l => Char.ofNat (8 * o1 + o2) :: l)
              | none => (uEscF f t').map (fun l => Char.ofNat o1 :: l)
            | [] => (uEscF f t').map (fun l => Char.ofNat o1 :: l)
          | none => (uEscF f t').map (fun l => '\\' :: Char.ofNat e :: l)

/-- Embedding of `bytes(content, "utf-8").decode("unicode_escape")`, line
105 of the source, applied to the UTF-8 bytes of the content. -/
def uEsc (bs : List Nat) : Option (List Char) := uEscF (bs.length + 1) bs

def eosTok : List Char := "<EOS>".data
def padTok : List Char := "<pad>".data

/-- One attempt of the regex
whitespace* `<EOS>` whitespace* `<pad>` whitespace* at the current
position: returns the remainder after a successful match. -/
def tryEOSpad (s : List Char) : Option (List Char) :=
  let s1 := s.dropWhile pyIsSpace
  if eosTok.isPrefixOf s1 then
    let s2 := (s1.drop 5).dropWhile pyIsSpace
    if padTok.isPrefixOf s2 then some ((s2.drop 5).dropWhile pyIsSpace)
    else none
  else none

/-- Fuelled worker for `stripEOSpad`. -/
def stripEOSpadF : Nat → List Char → List Char
  | _, [] => []
  | 0, s => s
  | f + 1, c :: t =>
    match tryEOSpad (c :: t) with
    | some rest => ' ' :: stripEOSpadF f rest
    | none => c :: stripEOSpadF f t

/-- Embedding of line 108 of the source: replace every occurrence of
whitespace* `<EOS>` whitespace* `<pad>` whitespace* by a single space,
scanning left to right without overlap. -/
def stripEOSpad (s : List Char) : List Char := stripEOSpadF s.length s

/-- Model of Python's `html.unescape`, line 113 of the source, restricted to
the basic named character references with semicolons; any other ampersand
sequence passes through unchanged.  (CPython additionally resolves the full
HTML5 named and numeric reference tables; none of the verified claims
depends on those entries.) -/
def htmlUnescapeF : Nat → List Char → List Char
  | _, [] => []
  | 0, s => s
  | f + 1, c :: t =>
    if c = '&' then
      match t with
      | 'a' :: 'm' :: 'p' :: ';' :: t' => '&' :: htmlUnescapeF f t'
      | 'l' :: 't' :: ';' :: t' => '<' :: htmlUnescapeF f t'
      | 'g' :: 't' :: ';' :: t' => '>' :: htmlUnescapeF f t'
      | 'q' :: 'u' :: 'o' :: 't' :: ';' :: t' => '"' :: htmlUnescapeF f t'
      | 'a' :: 'p' :: 'o' :: 's' :: ';' :: t' => '\'' :: htmlUnescapeF f t'
      | _ => '&' :: htmlUnescapeF f t
    else c :: htmlUnescapeF f t

def htmlUnescape (s : List Char) : List Char := htmlUnescapeF s.length s

/-- Embedding of `str.encode('latin1')` with the default strict error
handler: succeeds only when every character is at most U+00FF, and raises
(returns `none`) otherwise. -/
def latin1Encode : List Char → Option (List Nat)
  | [] => some []
  | c :: t =>
    if c.toNat ≤ 255 then (latin1Encode t).map (fun l => c.toNat :: l)
    else none

def contB (b : Nat) : Bool := 128 ≤ b && b ≤ 191

/-- Fuelled worker for `utf8DecodeIgnore`: standard UTF-8 decoding that
silently skips each maximal ill-formed subsequence, the behaviour of
`bytes.decode('utf-8', 'ignore')`. -/
def utf8DecodeIgnoreF : Nat → List Nat → List Char
  | 0, _ => []
  | _, [] => []
  | f + 1, b :: t =>
    if b < 128 then Char.ofNat b :: utf8DecodeIgnoreF f t
    else if 194 ≤ b && b ≤ 223 then
      match t with
      | [] => []
      | b1 :: t1 =>
        if contB b1 then Char.ofNat ((b - 192) * 64 + (b1 - 128)) :: utf8DecodeIgnoreF f t1
        else utf8DecodeIgnoreF f t
    else if 224 ≤ b && b ≤ 239 then
      match t with
      | [] => []
      | b1 :: t1 =>
        if (if b == 224 then 160 ≤ b1 && b1 ≤ 191
            else if b == 237 then 128 ≤ b1 && b1 ≤ 159
            else contB b1) then
          match t1 with
          | [] => []
          | b2 :: t2 =>
            if contB b2 then
              Char.ofNat ((b - 224) * 4096 + (b1 - 128) * 64 + (b2 - 128)) ::
                utf8DecodeIgnoreF f t2
            else utf8DecodeIgnoreF f t1
        else utf8DecodeIgnoreF f t
    else if 240 ≤ b && b ≤ 244 then
      match t with
      | [] => []
      | b1 :: t1 =>
        if (if b == 240 then 144 ≤ b1 && b1 ≤ 191
            else if b == 244 then 128 ≤ b1 && b1 ≤ 143
            else contB b1) then
          match t1 with
          | [] => []
          | b2 :: t2 =>
            if contB b2 then
              match t2 with
              | [] => []
              | b3 :: t3 =>
                if contB b3 then
                  Char.ofNat ((b - 240) * 262144 + (b1 - 128) * 4096 +
                    (b2 - 128) * 64 + (b3 - 128)) :: utf8DecodeIgnoreF f t3
                else utf8DecodeIgnoreF f t2
            else utf8DecodeIgnoreF f t1
        else utf8DecodeIgnoreF f t
    else utf8DecodeIgnoreF f t

/-- Embedding of `bytes.decode('utf-8', 'ignore')`. -/
def utf8DecodeIgnore (bs : List Nat) : List Char :=
  utf8DecodeIgnoreF (bs.length + 1) bs

/-- Line 116 of the source: `content.encode('latin1').decode('utf-8',
'ignore')`.  The encode half is strict; only the decode half ignores
errors. -/
def redecodeStep (s : List Char) : Option (List Char) :=
  (latin1Encode s).map utf8DecodeIgnore

/-- Corrupted en-dash sequence, line 120 of the source. -/
def pDash : List Char := ['â', '\u0080', '\u0093']
/-- Corrupted element-of sequence, lines 121 and 124 of the source. -/
def pElem : List Char := ['â', '\u0088', '\u0088']
/-- Corrupted multiplication-sign sequence, line 122 of the source. -/
def pTimes : List Char := ['Ã', '\u0097']
/-- Corrupted fi-ligature sequence, line 123 of the source. -/
def pFi : List Char := ['ï', '¬', '\u0081']
/-- Corrupted middle-dot sequence, line 125 of the source. -/
def pDot : List Char := ['Â', '·']
/-- Corrupted fl-ligature sequence, line 126 of the source. -/
def pFl : List Char := ['ï', '¬', '\u0082']

/-- Lines 120 through 126 of the source: the fixed ordered table of seven
literal substitutions repairing known mojibake sequences. -/
def fixChars (s : List Char) : List Char :=
  replaceAll pFl ['f', 'l']
    (replaceAll pDot ['·']
      (replaceAll pElem ['∈']
        (replaceAll pFi ['f', 'i']
          (replaceAll pTimes ['×']
            (replaceAll pElem ['∈']
              (replaceAll pDash ['-'] s))))))

/-- Lines 105 through 126 of the source: the per-record content pipeline,
in source order: unicode-escape decode of the UTF-8 bytes, literal
backslash-n replacement, artifact-token removal, whitespace collapse and
strip, HTML unescape, latin1/UTF-8 re-decode, mojibake repair table. -/
def cleanContent (content : List Char) : Option (List Char) :=
  match uEsc (utf8Encode content) with
  | none => none
  | some c1 =>
    let c2 := replaceAll ['\\', 'n'] ['\n'] c1
    let c3 := stripEOSpad c2
    let c4 := collapseWs c3
    let c5 := htmlUnescape c4
    match redecodeStep c5 with
    | none => none
    | some c6 => some (fixChars c6)

/-- Values of the metadata mapping.  Model of the results of
`ast.literal_eval` restricted to the flat shapes the metadata of this
program uses: strings, integers, booleans and `None`.  (CPython's
`literal_eval` additionally accepts floats, tuples and nested containers;
none of the verified claims depends on those.) -/
inductive PyVal where
  | str : List Char → PyVal
  | int : Int → PyVal
  | bool : Bool → PyVal
  | noneV : PyVal
deriving DecidableEq, Repr

def pIsDigit (c : Char) : Bool := '0' ≤ c && c ≤ '9'

def pSkipWs (s : List Char) : List Char :=
  s.dropWhile (fun c => c == ' ' || c == '\t' || c == '\n' || c == '\r')

/-- Body of a Python string literal after its opening quote `q`: reads up to
the closing quote, resolving the common backslash escapes; an unknown escape
keeps the backslash and the following character, as CPython does; a raw
newline before the closing quote is a syntax error. -/
def pStrBody (q : Char) : List Char → Option (List Char × List Char)
  | [] => none
  | c :: t =>
    if c = q then some ([], t)
    else if c = '\n' ∨ c = '\r' then none
    else if c = '\\' then
      match t with
      | [] => none
      | e :: t' =>
        if e = 'n' then (pStrBody q t').map (fun p => ('\n' :: p.1, p.2))
        else if e = 't' then (pStrBody q t').map (fun p => ('\t' :: p.1, p.2))
        else if e = 'r' then (pStrBody q t').map (fun p => ('\r' :: p.1, p.2))
        else if e = '\\' then (pStrBody q t').map (fun p => ('\\' :: p.1, p.2))
        else if e = '\'' then (pStrBody q t').map (fun p => ('\'' :: p.1, p.2))
        else if e = '"' then (pStrBody q t').map (fun p => ('"' :: p.1, p.2))
        else (pStrBody q t').map (fun p => ('\\' :: e :: p.1, p.2))
    else (pStrBody q t).map (fun p => (c :: p.1, p.2))

/-- Integer literal, optionally negated.  A following dot (a float literal)
is outside the modelled subset and rejected. -/
def pInt (s : List Char) : Option (Int × List Char) :=
  let neg := match s with
    | '-' :: _ => true
    | _ => false
  let s1 := if neg then s.drop 1 else s
  let ds := s1.takeWhile pIsDigit
  let rest := s1.dropWhile pIsDigit
  if ds = [] then none
  else
    match rest with
    | '.' :: _ => none
    | _ =>
      let v : Int := Int.ofNat (ds.foldl (fun a c => 10 * a + (c.toNat - 48)) 0)
      some (if neg then -v else v, rest)

/-- One atomic literal of the modelled subset: string, integer, `True`,
`False` or `None`, after optional whitespace. -/
def pAtom (s : List Char) : Option (PyVal × List Char) :=
  let s := pSkipWs s
  match s with
  | '\'' :: t => (pStrBody '\'' t).map (fun p => (PyVal.str p.1, p.2))
  | '"' :: t => (pStrBody '"' t).map (fun p => (PyVal.str p.1, p.2))
  | _ =>
    if "True".data.isPrefixOf s then some (PyVal.bool true, s.drop 4)
    else if "False".data.isPrefixOf s then some (PyVal.bool false, s.drop 5)
    else if "None".data.isPrefixOf s then some (PyVal.noneV, s.drop 4)
    else (pInt s).map (fun p => (PyVal.int p.1, p.2))

/-- Fuelled loop over the `key: value` pairs of a dict literal, consuming
the closing brace; keys must be string literals in the modelled subset. -/
def pPairs : Nat → List Char → Option (List (List Char × PyVal) × List Char)
  | 0, _ => none
  | f + 1, s =>
    match pAtom s with
    | some (PyVal.str k, s1) =>
      (match pSkipWs s1 with
      | ':' :: s3 =>
        (match pAtom s3 with
        | some (v, s4) =>
          (match pSkipWs s4 with
          | ',' :: s6 =>
            let s7 := pSkipWs s6
            (match s7 with
            | '\x7d' :: s8 => some ([(k, v)], s8)
            | _ =>
              match pPairs f s7 with
              | some (ps, srest) => some ((k, v) :: ps, srest)
              | none => none)
          | '\x7d' :: s6 => some ([(k, v)], s6)
          | _ => none)
        | none => none)
      | _ => none)
    | _ => none

/-- Model of `ast.literal_eval` at a dict literal, line 101 of the source,
restricted to flat dicts with string keys and string/integer/boolean/None
values; whitespace is permitted, trailing text is an error, and a parse
failure (CPython `ValueError`/`SyntaxError`) is `none`. -/
def parseMeta (s : List Char) : Option (List (List Char × PyVal)) :=
  match pSkipWs s with
  | '\x7b' :: t =>
    let t1 := pSkipWs t
    (match t1 with
    | '\x7d' :: t2 => if pSkipWs t2 = [] then some [] else none
    | _ =>
      match pPairs (s.length + 1) t1 with
      | some (ps, rest) => if pSkipWs rest = [] then some ps else none
      | none => none)
  | _ => none

/-- Python dict lookup over the parsed pair list: later duplicate keys
override earlier ones, `none` is a `KeyError`. -/
def dictGet (ps : List (List Char × PyVal)) (k : List Char) : Option PyVal :=
  ps.foldl (fun acc kv => if kv.1 = k then some kv.2 else acc) none

def natToChars (n : Nat) : List Char := Nat.toDigits 10 n

/-- Python `str` of an integer: decimal digits with a leading minus sign for
negative values. -/
def intToChars : Int → List Char
  | Int.ofNat n => natToChars n
  | Int.negSucc n => '-' :: natToChars (n + 1)

/-- Python `str` of a metadata value, as used for the page number. -/
def pyDisplay : PyVal → List Char
  | PyVal.str s => s
  | PyVal.int i => intToChars i
  | PyVal.bool b => if b then "True".data else "False".data
  | PyVal.noneV => "None".data

/-- The literal `page_content=` that the regex of line 98 anchors on. -/
def pageContentLit : List Char := "page_content=".data

/-- The literal ` metadata=` followed by an opening brace: the boundary the
regex of line 98 separates on (11 characters). -/
def metaMarker : List Char := " metadata=\x7b".data

/-- Whether a closing brace appears before the next newline: the
requirement of the regex tail `.*` closing-brace, whose dot does not match
newlines. -/
def lineHasBrace (s : List Char) : Bool :=
  (s.takeWhile (fun c => c ≠ '\n')).contains '\x7d'

/-- Whether the lazy group of the regex may stop at this position: the
marker must start here and a closing brace must follow on the same line. -/
def canMatchAt (s : List Char) : Bool :=
  metaMarker.isPrefixOf s && lineHasBrace (s.drop 11)

/-- Scan of the lazy group `(.*?)`: finds the leftmost position at which
the rest of the pattern matches, never crossing a newline (the dot of the
Python regex does not match newlines); returns the consumed content and the
remainder starting at the marker. -/
def findSplit : List Char → Option (List Char × List Char)
  | [] => none
  | c :: t =>
    if canMatchAt (c :: t) then some ([], c :: t)
    else if c = '\n' then none
    else
      match findSplit t with
      | some p => some (c :: p.1, p.2)
      | none => none

/-- The prefix of `l` up to and including its last closing brace (the
greedy `.*` before the final literal closing brace of the regex). -/
def upToLastBrace (l : List Char) : List Char :=
  (l.reverse.dropWhile (fun c => c ≠ '\x7d')).reverse

/-- Embedding of
`re.match(r"page_content=(.*?)( metadata=\x7b.*\x7d)", doc).groups()`,
lines 97 through 99 of the source: returns the content group and the
metadata group, or `none` when the regex does not match (in which case the
source raises `AttributeError` on `.groups()`). -/
def matchDoc (d : List Char) : Option (List Char × List Char) :=
  if pageContentLit.isPrefixOf d then
    match findSplit (d.drop 13) with
    | some (content, rest) =>
      let line := (rest.drop 11).takeWhile (fun c => c ≠ '\n')
      some (content, metaMarker ++ upToLastBrace line)
    | none => none
  else none

/-- Line 100 of the source: `metadata.split('=', 1)[1]`, the text after the
first equals sign; `none` models the `IndexError` when no equals sign
occurs. -/
def splitEqOnce (s : List Char) : Option (List Char) :=
  if s.contains '=' then some ((s.dropWhile (fun c => c ≠ '=')).drop 1)
  else none

/-- Model of `os.path.basename` on POSIX: the text after the last slash. -/
def basename (s : List Char) : List Char :=
  (s.reverse.takeWhile (fun c => c ≠ '/')).reverse

/-- Line 91 of the source: the fixed server base URL. -/
def serverUrl : List Char := "http://localhost:8000".data

/-- Lines 128 through 132 of the source: the block emitted for one record,
with `pdf_url = serverUrl + '/' + basename(source)` inlined exactly as the
f-strings build it. -/
def refBlock (counter : Nat) (content fname pg : List Char) : List Char :=
  "Reference ".data ++ natToChars counter ++ ":\n".data ++
  content ++ "\n\n".data ++
  "Filename: ".data ++ fname ++ " | ".data ++
  "Page number: ".data ++ pg ++ " | ".data ++
  "[View PDF](".data ++ serverUrl ++ "/".data ++ fname ++ ")".data ++
  "\n\n".data

/-- The metadata dict of one record: regex match, split at the first equals
sign, `ast.literal_eval`. -/
def docDict (doc : List Char) : Option (List (List Char × PyVal)) :=
  match matchDoc doc with
  | none => none
  | some (_, g2) =>
    match splitEqOnce g2 with
    | none => none
    | some mt => parseMeta mt

/-- The `source` entry of one record's metadata, which must be a string for
`os.path.basename` to accept it. -/
def extractSource (doc : List Char) : Option (List Char) :=
  match docDict doc with
  | none => none
  | some md =>
    match dictGet md "source".data with
    | some (PyVal.str s) => some s
    | _ => none

/-- The loop body of lines 96 through 135 for one record (its textual form
with the two appended newlines): the cleaned content, the filename
`basename(metadata['source'])` and the displayed page number, in the
evaluation order of the source (parse, content pipeline, then the metadata
key lookups of the f-strings); `none` models any raised exception. -/
def processDoc (doc : List Char) : Option (List Char × List Char × List Char) :=
  match matchDoc doc with
  | none => none
  | some (content, g2) =>
    match splitEqOnce g2 with
    | none => none
    | some mt =>
      match parseMeta mt with
      | none => none
      | some md =>
        match cleanContent content with
        | none => none
        | some cc =>
          match dictGet md "source".data with
          | some (PyVal.str s) =>
            (match dictGet md "page".data with
            | some pv => some (cc, basename s, pyDisplay pv)
            | none => none)
          | _ => none

/-- The accumulation loop of lines 92 through 136: `markdown_documents`
starts empty, `counter` starts at 1 and increments once per record, and any
per-record failure aborts the whole call with no output. -/
def cleanReferencesGo : List (List Char) → Nat → List Char → Option (List Char)
  | [], _, acc => some acc
  | doc :: rest, counter, acc =>
    match processDoc doc with
    | none => none
    | some (cc, fn, pg) =>
      cleanReferencesGo rest (counter + 1) (acc ++ refBlock counter cc fn pg)

/-- Embedding of `ChatBot.clean_references`: the input is the list of the
records' textual forms (Python `str(x)` per document); the function appends
two newlines to each (line 92) and folds the loop. -/
def clean_references (documents : List (List Char)) : Option (List Char) :=
  cleanReferencesGo (documents.map (fun d => d ++ "\n\n".data)) 1 []

/-- The concatenation of one block per processed record with indices
counting up from `k` by one. -/
def blocksFrom (k : Nat) : List (List Char × List Char × List Char) → List Char
  | [] => []
  | (cc, fn, pg) :: rest => refBlock k cc fn pg ++ blocksFrom (k + 1) rest

/-- A fragment of the Python heap: numbered list objects, each holding a
list of strings.  Used to express aliasing and frame properties of
`clean_references` that the pure embedding abstracts away. -/
structure PyHeap where
  cells : List (List (List Char))
deriving DecidableEq

def readCell (h : PyHeap) (r : Nat) : Option (List (List Char)) :=
  h.cells[r]?

def allocCell (h : PyHeap) (v : List (List Char)) : PyHeap × Nat :=
  (⟨h.cells ++ [v]⟩, h.cells.length)

/-- Heap-level model of `clean_references`: the comprehension of line 92
allocates a fresh list object and rebinds the local name; the loop reads
only that fresh list and never writes to any existing cell, so the caller's
argument list object is left untouched whether the call returns or
raises. -/
def clean_references_st (h : PyHeap) (docsRef : Nat) : PyHeap × Option (List Char) :=
  match readCell h docsRef with
  | none => (h, none)
  | some xs =>
    let docs := xs.map (fun d => d ++ "\n\n".data)
    ((allocCell h docs).1, cleanReferencesGo docs 1 [])

theorem replaceAllF_fuel (p r : List Char) :
    ∀ f1 f2 s, s.length ≤ f1 → s.length ≤ f2 →
      replaceAllF p r f1 s = replaceAllF p r f2 s := by
  intro f1
  induction f1 with
  | zero =>
    intro f2 s h1 _
    have hs : s = [] := List.eq_nil_of_length_eq_zero (Nat.le_zero.mp h1)
    subst hs
    cases f2 <;> rfl
  | succ f ih =>
    intro f2 s h1 h2
    cases s with
    | nil => cases f2 <;> rfl
    | cons c t =>
      cases f2 with
      | zero => simp at h2
      | succ g =>
        simp only [replaceAllF]
        by_cases hcond : p ≠ [] ∧ p.isPrefixOf (c :: t)
        · rw [if_pos hcond, if_pos hcond]
          have hlen : (t.drop (p.length - 1)).length ≤ t.length := by
            rw [List.length_drop]; omega
          have ht : t.length ≤ f := by simp at h1; omega
          have hg : t.length ≤ g := by simp at h2; omega
          rw [ih g (t.drop (p.length - 1)) (le_trans hlen ht) (le_trans hlen hg)]
        · rw [if_neg hcond, if_neg hcond]
          have ht : t.length ≤ f := by simp at h1; omega
          have hg : t.length ≤ g := by simp at h2; omega
          rw [ih g t ht hg]

theorem replaceAll_nil (p r : List Char) : replaceAll p r [] = [] := rfl

theorem replaceAll_cons (p r : List Char) (c : Char) (t : List Char) :
    replaceAll p r (c :: t) =
      if p ≠ [] ∧ p.isPrefixOf (c :: t) then
        r ++ replaceAll p r (t.drop (p.length - 1))
      else c :: replaceAll p r t := by
  show replaceAllF p r (t.length + 1) (c :: t) = _
  simp only [replaceAllF]
  by_cases hcond : p ≠ [] ∧ p.isPrefixOf (c :: t)
  · rw [if_pos hcond, if_pos hcond]
    have hlen : (t.drop (p.length - 1)).length ≤ t.length := by
      rw [List.length_drop]; omega
    rw [replaceAllF_fuel p r t.length (t.drop (p.length - 1)).length _ hlen le_rfl]
    rfl
  · rw [if_neg hcond, if_neg hcond]
    rfl

theorem occursSub_cons (p : List Char) (c : Char) (t : List Char) :
    occursSub p (c :: t) = (p.isPrefixOf (c :: t) || occursSub p t) := rfl

theorem prefix_head_eq {p0 c : Char} {ps l : List Char}
    (h : (p0 :: ps).isPrefixOf (c :: l) = true) : p0 = c := by
  have h' : (p0 == c && ps.isPrefixOf l) = true := h
  rw [Bool.and_eq_true] at h'
  exact eq_of_beq h'.1

theorem prefix_tail_of_cons {p0 c : Char} {ps l : List Char}
    (h : (p0 :: ps).isPrefixOf (c :: l) = true) : ps.isPrefixOf l = true := by
  have h' : (p0 == c && ps.isPrefixOf l) = true := h
  rw [Bool.and_eq_true] at h'
  exact h'.2

theorem nilPrefixOf (l : List Char) : List.isPrefixOf ([] : List Char) l = true := by
  cases l <;> rfl

theorem prefix_cons_of {ps l : List Char} (h : ps.isPrefixOf l = true) (c : Char) :
    (c :: ps).isPrefixOf (c :: l) = true := by
  show (c == c && ps.isPrefixOf l) = true
  rw [h, beq_self_eq_true]
  rfl

theorem occursSub_append_disjoint (p : List Char) (hp : p ≠ []) :
    ∀ (r x : List Char), (∀ c ∈ r, c ∉ p) →
      occursSub p (r ++ x) = occursSub p x := by
  intro r
  induction r with
  | nil => intro x _; rfl
  | cons c r' ih =>
    intro x h
    have hmem : c ∉ p := h c (List.mem_cons_self c r')
    rw [List.cons_append, occursSub_cons]
    have hfalse : p.isPrefixOf (c :: (r' ++ x)) = false := by
      cases p with
      | nil => exact absurd rfl hp
      | cons p0 ps =>
        cases hh : (p0 :: ps).isPrefixOf (c :: (r' ++ x)) with
        | false => rfl
        | true =>
          exact absurd ((prefix_head_eq hh) ▸ List.mem_cons_self p0 ps) hmem
    rw [hfalse, Bool.false_or]
    exact ih x (fun d hd => h d (List.mem_cons_of_mem c hd))

theorem occursSub_tail {q : List Char} {c : Char} {t : List Char}
    (h : occursSub q (c :: t) = false) : occursSub q t = false := by
  rw [occursSub_cons] at h
  exact (Bool.or_eq_false_iff.mp h).2

theorem occursSub_drop (q : List Char) :
    ∀ (k : Nat) (t : List Char), occursSub q t = false →
      occursSub q (t.drop k) = false := by
  intro k
  induction k with
  | zero => intro t h; exact h
  | succ k ih =>
    intro t h
    cases t with
    | nil => exact h
    | cons c t' => exact ih t' (occursSub_tail h)

theorem prefix_replaceAll (p r : List Char) (hr : r ≠ []) :
    ∀ (n : Nat) (t q : List Char), t.length ≤ n → q ≠ [] → (∀ c ∈ q, c ∉ r) →
      q.isPrefixOf (replaceAll p r t) = true → q.isPrefixOf t = true := by
  intro n
  induction n with
  | zero =>
    intro t q ht hq _ hpre
    have hnil : t = [] := List.eq_nil_of_length_eq_zero (Nat.le_zero.mp ht)
    subst hnil
    rw [replaceAll_nil] at hpre
    cases q with
    | nil => exact absurd rfl hq
    | cons a as => simp [List.isPrefixOf] at hpre
  | succ n ih =>
    intro t q ht hq hdisj hpre
    cases t with
    | nil =>
      rw [replaceAll_nil] at hpre
      cases q with
      | nil => exact absurd rfl hq
      | cons a as => simp [List.isPrefixOf] at hpre
    | cons c t' =>
      rw [replaceAll_cons] at hpre
      by_cases hcond : p ≠ [] ∧ p.isPrefixOf (c :: t')
      · rw [if_pos hcond] at hpre
        exfalso
        cases q with
        | nil => exact hq rfl
        | cons q0 qs =>
          cases r with
          | nil => exact hr rfl
          | cons r0 rs =>
            have h0 : q0 = r0 := prefix_head_eq (by simpa using hpre)
            exact hdisj q0 (List.mem_cons_self _ _) (h0 ▸ List.mem_cons_self r0 rs)
      · rw [if_neg hcond] at hpre
        cases q with
        | nil => exact absurd rfl hq
        | cons q0 qs =>
          have h0 : q0 = c := prefix_head_eq hpre
          have htail : qs.isPrefixOf (replaceAll p r t') = true := prefix_tail_of_cons hpre
          cases qs with
          | nil =>
            rw [h0]
            exact prefix_cons_of (nilPrefixOf t') c
          | cons q1 qs' =>
            have ht' : t'.length ≤ n := by simp at ht; omega
            have hdisj' : ∀ c ∈ (q1 :: qs'), c ∉ r :=
              fun d hd => hdisj d (List.mem_cons_of_mem q0 hd)
            have hrec := ih t' (q1 :: qs') ht' (List.cons_ne_nil q1 qs') hdisj' htail
            rw [h0]
            exact prefix_cons_of hrec c

theorem occursSub_replaceAll_self (p r : List Char) (hp : p ≠ []) (hr : r ≠ [])
    (hdisj : ∀ c ∈ r, c ∉ p) :
    ∀ (n : Nat) (t : List Char), t.length ≤ n →
      occursSub p (replaceAll p r t) = false := by
  intro n
  induction n with
  | zero =>
    intro t ht
    have hnil : t = [] := List.eq_nil_of_length_eq_zero (Nat.le_zero.mp ht)
    subst hnil
    rw [replaceAll_nil]
    cases p with
    | nil => exact absurd rfl hp
    | cons a as => rfl
  | succ n ih =>
    intro t ht
    cases t with
    | nil =>
      rw [replaceAll_nil]
      cases p with
      | nil => exact absurd rfl hp
      | cons a as => rfl
    | cons c t' =>
      rw [replaceAll_cons]
      have ht' : t'.length ≤ n := by simp at ht; omega
      by_cases hcond : p ≠ [] ∧ p.isPrefixOf (c :: t')
      · rw [if_pos hcond]
        rw [occursSub_append_disjoint p hp r _ hdisj]
        have hlen : (t'.drop (p.length - 1)).length ≤ n := by
          rw [List.length_drop]; omega
        exact ih (t'.drop (p.length - 1)) hlen
      · rw [if_neg hcond]
        rw [occursSub_cons]
        rw [ih t' ht', Bool.or_false]
        cases p with
        | nil => exact absurd rfl hp
        | cons p0 ps =>
          cases hh : (p0 :: ps).isPrefixOf (c :: replaceAll (p0 :: ps) r t') with
          | false => rfl
          | true =>
            exfalso
            have h0 : p0 = c := prefix_head_eq hh
            have htail : ps.isPrefixOf (replaceAll (p0 :: ps) r t') = true :=
              prefix_tail_of_cons hh
            cases ps with
            | nil =>
              apply hcond
              refine ⟨hp, ?_⟩
              rw [h0]
              exact prefix_cons_of (nilPrefixOf t') c
            | cons p1 ps' =>
              have hdisj' : ∀ d ∈ (p1 :: ps'), d ∉ r := by
                intro d hd hdr
                exact hdisj d hdr (List.mem_cons_of_mem p0 hd)
              have hfrag := prefix_replaceAll (p0 :: p1 :: ps') r hr t'.length t' (p1 :: ps')
                le_rfl (List.cons_ne_nil p1 ps') hdisj' htail
              apply hcond
              refine ⟨hp, ?_⟩
              rw [h0]
              exact prefix_cons_of hfrag c

theorem occursSub_replaceAll_other (p r q : List Char) (hq : q ≠ []) (hr : r ≠ [])
    (hdisj : ∀ c ∈ r, c ∉ q) :
    ∀ (n : Nat) (t : List Char), t.length ≤ n → occursSub q t = false →
      occursSub q (replaceAll p r t) = false := by
  intro n
  induction n with
  | zero =>
    intro t ht _
    have hnil : t = [] := List.eq_nil_of_length_eq_zero (Nat.le_zero.mp ht)
    subst hnil
    rw [replaceAll_nil]
    cases q with
    | nil => exact absurd rfl hq
    | cons a as => rfl
  | succ n ih =>
    intro t ht hocc
    cases t with
    | nil =>
      rw [replaceAll_nil]
      exact hocc
    | cons c t' =>
      rw [replaceAll_cons]
      have ht' : t'.length ≤ n := by simp at ht; omega
      by_cases hcond : p ≠ [] ∧ p.isPrefixOf (c :: t')
      · rw [if_pos hcond]
        rw [occursSub_append_disjoint q hq r _ hdisj]
        have hdropOcc : occursSub q (t'.drop (p.length - 1)) = false :=
          occursSub_drop q (p.length - 1) t' (occursSub_tail hocc)
        have hlen : (t'.drop (p.length - 1)).length ≤ n := by
          rw [List.length_drop]; omega
        exact ih (t'.drop (p.length - 1)) hlen hdropOcc
      · rw [if_neg hcond]
        rw [occursSub_cons]
        rw [ih t' ht' (occursSub_tail hocc), Bool.or_false]
        have hnotPre : q.isPrefixOf (c :: t') = false := by
          rw [occursSub_cons] at hocc
          exact (Bool.or_eq_false_iff.mp hocc).1
        cases q with
        | nil => exact absurd rfl hq
        | cons q0 qs =>
          cases hh : (q0 :: qs).isPrefixOf (c :: replaceAll p r t') with
          | false => rfl
          | true =>
            exfalso
            have h0 : q0 = c := prefix_head_eq hh
            have htail : qs.isPrefixOf (replaceAll p r t') = true := prefix_tail_of_cons hh
            cases qs with
            | nil =>
              rw [h0, prefix_cons_of (nilPrefixOf t') c] at hnotPre
              exact absurd hnotPre (by decide)
            | cons q1 qs' =>
              have hdisj' : ∀ d ∈ (q1 :: qs'), d ∉ r := by
                intro d hd hdr
                exact hdisj d hdr (List.mem_cons_of_mem q0 hd)
              have hfrag := prefix_replaceAll p r hr t'.length t' (q1 :: qs')
                le_rfl (List.cons_ne_nil q1 qs') hdisj' htail
              rw [h0, prefix_cons_of hfrag c] at hnotPre
              exact absurd hnotPre (by decide)

theorem replaceAll_of_not_occurs (p r : List Char) :
    ∀ (n : Nat) (t : List Char), t.length ≤ n → occursSub p t = false →
      replaceAll p r t = t := by
  intro n
  induction n with
  | zero =>
    intro t ht _
    have hnil : t = [] := List.eq_nil_of_length_eq_zero (Nat.le_zero.mp ht)
    subst hnil
    exact replaceAll_nil p r
  | succ n ih =>
    intro t ht hocc
    cases t with
    | nil => exact replaceAll_nil p r
    | cons c t' =>
      rw [replaceAll_cons]
      have ht' : t'.length ≤ n := by simp at ht; omega
      have hnotPre : p.isPrefixOf (c :: t') = false := by
        rw [occursSub_cons] at hocc
        exact (Bool.or_eq_false_iff.mp hocc).1
      have hcond : ¬(p ≠ [] ∧ p.isPrefixOf (c :: t')) := by
        intro hc
        rw [hnotPre] at hc
        exact Bool.false_ne_true hc.2
      rw [if_neg hcond]
      rw [ih t' ht' (occursSub_tail hocc)]

theorem mem_replaceAll (p r : List Char) :
    ∀ (n : Nat) (t : List Char) (c : Char), t.length ≤ n →
      c ∈ replaceAll p r t → c ∈ t ∨ c ∈ r := by
  intro n
  induction n with
  | zero =>
    intro t c ht hmem
    have hnil : t = [] := List.eq_nil_of_length_eq_zero (Nat.le_zero.mp ht)
    subst hnil
    rw [replaceAll_nil] at hmem
    exact absurd hmem (List.not_mem_nil c)
  | succ n ih =>
    intro t c ht hmem
    cases t with
    | nil =>
      rw [replaceAll_nil] at hmem
      exact absurd hmem (List.not_mem_nil c)
    | cons c0 t' =>
      rw [replaceAll_cons] at hmem
      have ht' : t'.length ≤ n := by simp at ht; omega
      by_cases hcond : p ≠ [] ∧ p.isPrefixOf (c0 :: t')
      · rw [if_pos hcond] at hmem
        rcases List.mem_append.mp hmem with hl | hr2
        · exact Or.inr hl
        · have hlen : (t'.drop (p.length - 1)).length ≤ n := by
            rw [List.length_drop]; omega
          rcases ih (t'.drop (p.length - 1)) c hlen hr2 with h1 | h2
          · exact Or.inl (List.mem_cons_of_mem c0 (List.drop_subset _ t' h1))
          · exact Or.inr h2
      · rw [if_neg hcond] at hmem
        rcases List.mem_cons.mp hmem with h1 | h2
        · exact Or.inl (h1 ▸ List.mem_cons_self c0 t')
        · rcases ih t' c ht' h2 with h3 | h4
          · exact Or.inl (List.mem_cons_of_mem c0 h3)
          · exact Or.inr h4

theorem occursSub_head_mem (p0 : Char) (ps : List Char) :
    ∀ t : List Char, occursSub (p0 :: ps) t = true → p0 ∈ t := by
  intro t
  induction t with
  | nil => intro h; simp [occursSub, List.isEmpty] at h
  | cons c t' ih =>
    intro h
    rw [occursSub_cons] at h
    rcases Bool.or_eq_true_iff.mp h with h1 | h2
    · exact (prefix_head_eq h1) ▸ List.mem_cons_self p0 t'
    · exact List.mem_cons_of_mem c (ih h2)

theorem length_dropWhile_le' (p : Char → Bool) :
    ∀ l : List Char, (l.dropWhile p).length ≤ l.length := by
  intro l
  induction l with
  | nil => exact Nat.le_refl 0
  | cons c t ih =>
    by_cases h : p c = true
    · rw [List.dropWhile_cons_of_pos h]
      exact Nat.le_succ_of_le ih
    · rw [List.dropWhile_cons_of_neg h]

theorem subWsF_fuel :
    ∀ f1 f2 s, s.length ≤ f1 → s.length ≤ f2 → subWsF f1 s = subWsF f2 s := by
  intro f1
  induction f1 with
  | zero =>
    intro f2 s h1 _
    have hs : s = [] := List.eq_nil_of_length_eq_zero (Nat.le_zero.mp h1)
    subst hs
    cases f2 <;> rfl
  | succ f ih =>
    intro f2 s h1 h2
    cases s with
    | nil => cases f2 <;> rfl
    | cons c t =>
      cases f2 with
      | zero => simp at h2
      | succ g =>
        have ht : t.length ≤ f := by simp at h1; omega
        have hg : t.length ≤ g := by simp at h2; omega
        simp only [subWsF]
        by_cases h : pyIsSpace c = true
        · rw [if_pos h, if_pos h]
          have hd := length_dropWhile_le' pyIsSpace t
          rw [ih g (t.dropWhile pyIsSpace) (le_trans hd ht) (le_trans hd hg)]
        · rw [if_neg h, if_neg h, ih g t ht hg]

theorem subWs_nil : subWs [] = [] := rfl

theorem subWs_cons (c : Char) (t : List Char) :
    subWs (c :: t) =
      if pyIsSpace c then ' ' :: subWs (t.dropWhile pyIsSpace)
      else c :: subWs t := by
  show subWsF (t.length + 1) (c :: t) = _
  simp only [subWsF]
  by_cases h : pyIsSpace c = true
  · rw [if_pos h, if_pos h]
    have hd := length_dropWhile_le' pyIsSpace t
    rw [subWsF_fuel t.length (t.dropWhile pyIsSpace).length _ hd le_rfl]
    rfl
  · rw [if_neg h, if_neg h]
    rfl

theorem dropWhile_cases (p : Char → Bool) :
    ∀ l : List Char, l.dropWhile p = [] ∨
      ∃ d u, l.dropWhile p = d :: u ∧ p d = false := by
  intro l
  induction l with
  | nil => exact Or.inl rfl
  | cons c t ih =>
    by_cases h : p c = true
    · rw [List.dropWhile_cons_of_pos h]
      exact ih
    · rw [List.dropWhile_cons_of_neg h]
      exact Or.inr ⟨c, t, rfl, Bool.eq_false_iff.mpr h⟩

theorem mem_dropWhile_sub (p : Char → Bool) :
    ∀ (l : List Char) (c : Char), c ∈ l.dropWhile p → c ∈ l := by
  intro l
  induction l with
  | nil => intro c h; exact absurd h (List.not_mem_nil c)
  | cons c0 t ih =>
    intro c h
    by_cases hp : p c0 = true
    · rw [List.dropWhile_cons_of_pos hp] at h
      exact List.mem_cons_of_mem c0 (ih c h)
    · rw [List.dropWhile_cons_of_neg hp] at h
      exact h

theorem wsOnly_subWs :
    ∀ (n : Nat) (t : List Char), t.length ≤ n →
      ∀ c ∈ subWs t, pyIsSpace c = true → c = ' ' := by
  intro n
  induction n with
  | zero =>
    intro t ht c hc _
    have hnil : t = [] := List.eq_nil_of_length_eq_zero (Nat.le_zero.mp ht)
    subst hnil
    exact absurd hc (List.not_mem_nil c)
  | succ n ih =>
    intro t ht c hc hws
    cases t with
    | nil => exact absurd hc (List.not_mem_nil c)
    | cons c0 t' =>
      rw [subWs_cons] at hc
      have ht' : t'.length ≤ n := by simp at ht; omega
      by_cases h : pyIsSpace c0 = true
      · rw [if_pos h] at hc
        rcases List.mem_cons.mp hc with h1 | h2
        · exact h1
        · have hd := length_dropWhile_le' pyIsSpace t'
          exact ih (t'.dropWhile pyIsSpace) (le_trans hd ht') c h2 hws
      · rw [if_neg h] at hc
        rcases List.mem_cons.mp hc with h1 | h2
        · exact absurd (h1 ▸ hws) h
        · exact ih t' ht' c h2 hws

theorem goodRuns_cons₂ (a b : Char) (t : List Char) :
    goodRuns (a :: b :: t) = ((!(pyIsSpace a && pyIsSpace b)) && goodRuns (b :: t)) := rfl

theorem goodRuns_tail {a : Char} {x : List Char}
    (h : goodRuns (a :: x) = true) : goodRuns x = true := by
  cases x with
  | nil => rfl
  | cons b y =>
    rw [goodRuns_cons₂, Bool.and_eq_true] at h
    exact h.2

theorem goodRuns_cons_of_head_not {a : Char} {x : List Char}
    (ha : pyIsSpace a = false) (hx : goodRuns x = true) :
    goodRuns (a :: x) = true := by
  cases x with
  | nil => rfl
  | cons b y =>
    rw [goodRuns_cons₂, ha]
    simpa using hx

theorem goodRuns_subWs :
    ∀ (n : Nat) (t : List Char), t.length ≤ n → goodRuns (subWs t) = true := by
  intro n
  induction n with
  | zero =>
    intro t ht
    have hnil : t = [] := List.eq_nil_of_length_eq_zero (Nat.le_zero.mp ht)
    subst hnil
    rfl
  | succ n ih =>
    intro t ht
    cases t with
    | nil => rfl
    | cons c t' =>
      rw [subWs_cons]
      have ht' : t'.length ≤ n := by simp at ht; omega
      have hd := length_dropWhile_le' pyIsSpace t'
      by_cases h : pyIsSpace c = true
      · rw [if_pos h]
        rcases dropWhile_cases pyIsSpace t' with hnil | ⟨d, u, heq, hdws⟩
        · rw [hnil, subWs_nil]
          rfl
        · rw [heq, subWs_cons, if_neg (by rw [hdws]; exact Bool.false_ne_true)]
          have hrec : goodRuns (subWs (t'.dropWhile pyIsSpace)) = true :=
            ih (t'.dropWhile pyIsSpace) (le_trans hd ht')
          rw [heq, subWs_cons, if_neg (by rw [hdws]; exact Bool.false_ne_true)] at hrec
          rw [goodRuns_cons₂]
          have h4 : (!(pyIsSpace ' ' && pyIsSpace d)) = true := by
            rw [hdws, Bool.and_false]
            rfl
          rw [h4, Bool.true_and]
          exact hrec
      · rw [if_neg h]
        exact goodRuns_cons_of_head_not (Bool.eq_false_iff.mpr h) (ih t' ht')

theorem dTW_cons (c : Char) (t : List Char) :
    dropTrailingWs (c :: t) =
      match dropTrailingWs t with
      | [] => if pyIsSpace c then [] else [c]
      | r => c :: r := rfl

theorem dTW_shape (c : Char) (t : List Char) :
    dropTrailingWs (c :: t) = [] ∨
      dropTrailingWs (c :: t) = c :: dropTrailingWs t := by
  rw [dTW_cons]
  cases h : dropTrailingWs t with
  | nil =>
    by_cases hc : pyIsSpace c = true
    · left
      show (if pyIsSpace c then [] else [c]) = ([] : List Char)
      rw [if_pos hc]
    · right
      show (if pyIsSpace c then [] else [c]) = c :: ([] : List Char)
      rw [if_neg hc]
  | cons r0 rs =>
    right
    rfl

theorem mem_dTW : ∀ (l : List Char) (c : Char), c ∈ dropTrailingWs l → c ∈ l := by
  intro l
  induction l with
  | nil => intro c h; exact absurd h (List.not_mem_nil c)
  | cons c0 t ih =>
    intro c h
    rcases dTW_shape c0 t with hs | hs
    · rw [hs] at h
      exact absurd h (List.not_mem_nil c)
    · rw [hs] at h
      rcases List.mem_cons.mp h with h1 | h2
      · exact h1 ▸ List.mem_cons_self c0 t
      · exact List.mem_cons_of_mem c0 (ih c h2)

theorem goodRuns_dTW :
    ∀ l : List Char, goodRuns l = true → goodRuns (dropTrailingWs l) = true := by
  intro l
  induction l with
  | nil => intro _; rfl
  | cons c t ih =>
    intro h
    rcases dTW_shape c t with hs | hs
    · rw [hs]; rfl
    · rw [hs]
      have hrec : goodRuns (dropTrailingWs t) = true := ih (goodRuns_tail h)
      cases h2 : dropTrailingWs t with
      | nil => rfl
      | cons d u =>
        cases t with
        | nil => exact absurd h2 (by simp [dropTrailingWs])
        | cons t0 t1 =>
          rcases dTW_shape t0 t1 with hs2 | hs2
          · rw [hs2] at h2
            exact absurd h2 (by simp)
          · rw [hs2] at h2
            injection h2 with hd hu
            rw [hs2, hd, hu] at hrec
            rw [goodRuns_cons₂, hrec, Bool.and_true]
            rw [goodRuns_cons₂, Bool.and_eq_true] at h
            rw [← hd]
            exact h.1

theorem dTW_idem : ∀ l : List Char, dropTrailingWs (dropTrailingWs l) = dropTrailingWs l := by
  intro l
  induction l with
  | nil => rfl
  | cons c t ih =>
    cases h : dropTrailingWs t with
    | nil =>
      have hc : dropTrailingWs (c :: t) = if pyIsSpace c then [] else [c] := by
        rw [dTW_cons, h]
      rw [hc]
      by_cases hws : pyIsSpace c = true
      · rw [if_pos hws]
        rfl
      · rw [if_neg hws]
        rw [dTW_cons]
        show (match ([] : List Char) with
          | [] => if pyIsSpace c then [] else [c]
          | r => c :: r) = [c]
        rw [if_neg hws]
    | cons r0 rs =>
      have hc : dropTrailingWs (c :: t) = c :: (r0 :: rs) := by
        rw [dTW_cons, h]
      rw [hc]
      have hr : dropTrailingWs (r0 :: rs) = r0 :: rs := by
        have h3 := ih
        rw [h] at h3
        exact h3
      rw [dTW_cons, hr]

theorem subWs_id :
    ∀ (n : Nat) (u : List Char), u.length ≤ n →
      (∀ c ∈ u, pyIsSpace c = true → c = ' ') → goodRuns u = true →
      subWs u = u := by
  intro n
  induction n with
  | zero =>
    intro u hu _ _
    have hnil : u = [] := List.eq_nil_of_length_eq_zero (Nat.le_zero.mp hu)
    subst hnil
    rfl
  | succ n ih =>
    intro u hu hws hg
    cases u with
    | nil => rfl
    | cons c t =>
      rw [subWs_cons]
      have ht : t.length ≤ n := by simp at hu; omega
      by_cases h : pyIsSpace c = true
      · rw [if_pos h]
        have hc : c = ' ' := hws c (List.mem_cons_self c t) h
        cases t with
        | nil => rw [hc]; rfl
        | cons d t' =>
          rw [goodRuns_cons₂, Bool.and_eq_true] at hg
          have h1 := hg.1
          have h2 := hg.2
          have hdws : pyIsSpace d = false := by
            rw [h] at h1
            cases hdd : pyIsSpace d with
            | false => rfl
            | true => rw [hdd] at h1; exact absurd h1 (by decide)
          rw [List.dropWhile_cons_of_neg (by rw [hdws]; exact Bool.false_ne_true)]
          rw [ih (d :: t') ht (fun e he hse => hws e (List.mem_cons_of_mem c he) hse) h2]
          rw [hc]
      · rw [if_neg h]
        rw [ih t ht (fun e he hse => hws e (List.mem_cons_of_mem c he) hse) (goodRuns_tail hg)]

theorem dropWhile_id_of_head {d : Char} {u : List Char}
    (hd : pyIsSpace d = false) :
    (d :: u).dropWhile pyIsSpace = d :: u :=
  List.dropWhile_cons_of_neg (by rw [hd]; exact Bool.false_ne_true)

theorem contains_iff_mem' (l : List Char) (a : Char) : l.contains a = true ↔ a ∈ l := by
  show l.elem a = true ↔ a ∈ l
  exact List.elem_iff

theorem lineHasBrace_split :
    ∀ w : List Char, lineHasBrace w = true →
      ∃ v1 v2, w = v1 ++ '\x7d' :: v2 ∧ ∀ x ∈ v1, x ≠ '\n' := by
  intro w
  induction w with
  | nil =>
    intro h
    exact absurd h (by decide)
  | cons a w' ih =>
    intro h
    unfold lineHasBrace at h
    by_cases ha : a = '\n'
    · rw [List.takeWhile_cons_of_neg (by simp [ha])] at h
      exact absurd h (by decide)
    · rw [List.takeWhile_cons_of_pos (by simp [ha])] at h
      rw [contains_iff_mem'] at h
      rcases List.mem_cons.mp h with h1 | h2
      · exact ⟨[], w', by rw [← h1, List.nil_append], by intro x hx; exact absurd hx (List.not_mem_nil x)⟩
      · have h3 : lineHasBrace w' = true := by
          unfold lineHasBrace
          exact (contains_iff_mem' _ _).mpr h2
        obtain ⟨v1, v2, hsplit, hv1⟩ := ih h3
        refine ⟨a :: v1, v2, by rw [hsplit, List.cons_append], ?_⟩
        intro x hx
        rcases List.mem_cons.mp hx with h4 | h5
        · exact h4 ▸ ha
        · exact hv1 x h5

theorem lineHasBrace_append :
    ∀ (A v : List Char), (∀ x ∈ A, x ≠ '\n') →
      lineHasBrace (A ++ '\x7d' :: v) = true := by
  intro A
  induction A with
  | nil =>
    intro v _
    unfold lineHasBrace
    rw [List.nil_append, List.takeWhile_cons_of_pos (by decide)]
    rw [contains_iff_mem']
    exact List.mem_cons_self _ _
  | cons a A' ih =>
    intro v hA
    have ha : a ≠ '\n' := hA a (List.mem_cons_self a A')
    unfold lineHasBrace
    rw [List.cons_append, List.takeWhile_cons_of_pos (by simp [ha])]
    rw [contains_iff_mem']
    have hrec : lineHasBrace (A' ++ '\x7d' :: v) = true :=
      ih v (fun x hx => hA x (List.mem_cons_of_mem a hx))
    unfold lineHasBrace at hrec
    rw [contains_iff_mem'] at hrec
    exact List.mem_cons_of_mem a hrec

theorem findSplit_sound :
    ∀ s content rest, findSplit s = some (content, rest) →
      s = content ++ rest ∧ canMatchAt rest = true ∧
      (∀ x ∈ content, x ≠ '\n') ∧
      ∀ j, j < content.length → canMatchAt (content.drop j ++ rest) = false := by
  intro s
  induction s with
  | nil =>
    intro content rest h
    exact absurd h (by simp [findSplit])
  | cons c0 t ih =>
    intro content rest h
    simp only [findSplit] at h
    by_cases h1 : canMatchAt (c0 :: t) = true
    · rw [if_pos h1] at h
      have hpair := Option.some.inj h
      have hc : content = [] := (Prod.mk.injEq _ _ _ _ ▸ hpair).1.symm
      have hr : rest = c0 :: t := (Prod.mk.injEq _ _ _ _ ▸ hpair).2.symm
      subst hc
      subst hr
      refine ⟨rfl, h1, ?_, ?_⟩
      · intro x hx; exact absurd hx (List.not_mem_nil x)
      · intro j hj; exact absurd hj (by simp)
    · rw [if_neg h1] at h
      by_cases h2 : c0 = '\n'
      · rw [if_pos h2] at h
        exact absurd h (by simp)
      · rw [if_neg h2] at h
        cases h3 : findSplit t with
        | none => rw [h3] at h; exact absurd h (by simp)
        | some p =>
          obtain ⟨p1, p2⟩ := p
          rw [h3] at h
          have hpair := Option.some.inj h
          have hc : content = c0 :: p1 := (Prod.mk.injEq _ _ _ _ ▸ hpair).1.symm
          have hr : rest = p2 := (Prod.mk.injEq _ _ _ _ ▸ hpair).2.symm
          subst hc
          subst hr
          obtain ⟨ht, hcan, hnl, hpos⟩ := ih p1 rest h3
          refine ⟨by rw [List.cons_append, ht], hcan, ?_, ?_⟩
          · intro x hx
            rcases List.mem_cons.mp hx with h4 | h5
            · exact h4 ▸ h2
            · exact hnl x h5
          · intro j hj
            cases j with
            | zero =>
              show canMatchAt (c0 :: p1 ++ rest) = false
              rw [List.cons_append, ← ht]
              exact Bool.eq_false_iff.mpr h1
            | succ j' =>
              have hj' : j' < p1.length := by simp at hj; omega
              show canMatchAt (p1.drop j' ++ rest) = false
              exact hpos j' hj'

theorem no_marker_before (c rest : List Char)
    (hnl : ∀ x ∈ c, x ≠ '\n') (hm : canMatchAt rest = true)
    (hno : ∀ j, j < c.length → canMatchAt (c.drop j ++ rest) = false) :
    ∀ j, j < c.length → metaMarker.isPrefixOf (c.drop j ++ rest) = false := by
  intro j hj
  cases hpre : metaMarker.isPrefixOf (c.drop j ++ rest) with
  | false => rfl
  | true =>
    exfalso
    have hcan := hno j hj
    unfold canMatchAt at hcan hm
    rw [Bool.and_eq_true] at hm
    rw [hpre, Bool.true_and] at hcan
    obtain ⟨w, hw⟩ := List.isPrefixOf_iff_prefix.mp hm.1
    have hwdrop : rest.drop 11 = w := by
      rw [← hw]
      show (metaMarker ++ w).drop metaMarker.length = w
      exact List.drop_left metaMarker w
    obtain ⟨v1, v2, hsplit, hv1⟩ := lineHasBrace_split _ (hwdrop ▸ hm.2)
    have hrest : rest = (metaMarker ++ v1) ++ '\x7d' :: v2 := by
      rw [← hw, hsplit, List.append_assoc]
    have hAlen : 11 ≤ (c.drop j ++ (metaMarker ++ v1)).length := by
      have hmm : metaMarker.length = 11 := rfl
      simp [List.length_append]
      omega
    have hU : c.drop j ++ rest = (c.drop j ++ (metaMarker ++ v1)) ++ '\x7d' :: v2 := by
      rw [hrest]
      simp [List.append_assoc]
    have hdrop : (c.drop j ++ rest).drop 11 =
        (c.drop j ++ (metaMarker ++ v1)).drop 11 ++ '\x7d' :: v2 := by
      rw [hU, List.drop_append_of_le_length hAlen]
    have hAnl : ∀ x ∈ (c.drop j ++ (metaMarker ++ v1)).drop 11, x ≠ '\n' := by
      intro x hx
      have hx' := List.drop_subset _ _ hx
      rcases List.mem_append.mp hx' with h1 | h2
      · exact hnl x (List.drop_subset _ _ h1)
      · rcases List.mem_append.mp h2 with h3 | h4
        · exact (by decide : ∀ y ∈ metaMarker, y ≠ '\n') x h3
        · exact hv1 x h4
    have hfin : lineHasBrace ((c.drop j ++ rest).drop 11) = true := by
      rw [hdrop]
      exact lineHasBrace_append _ v2 hAnl
    rw [hfin] at hcan
    exact Bool.noConfusion hcan


theorem goodRuns_dropWhile (p : Char → Bool) :
    ∀ l : List Char, goodRuns l = true → goodRuns (l.dropWhile p) = true := by
  intro l
  induction l with
  | nil => intro _; rfl
  | cons c t ih =>
    intro h
    by_cases hp : p c = true
    · rw [List.dropWhile_cons_of_pos hp]
      exact ih (goodRuns_tail h)
    · rw [List.dropWhile_cons_of_neg hp]
      exact h

theorem latin1Encode_total :
    ∀ s : List Char, (∀ c ∈ s, c.toNat ≤ 255) → ∃ bs, latin1Encode s = some bs := by
  intro s
  induction s with
  | nil => intro _; exact ⟨[], rfl⟩
  | cons c t ih =>
    intro h
    obtain ⟨bs, hbs⟩ := ih (fun x hx => h x (List.mem_cons_of_mem c hx))
    refine ⟨c.toNat :: bs, ?_⟩
    show (if c.toNat ≤ 255 then (latin1Encode t).map (fun l => c.toNat :: l) else none) =
      some (c.toNat :: bs)
    rw [if_pos (h c (List.mem_cons_self c t)), hbs]
    rfl

theorem cleanReferencesGo_blocks :
    ∀ (ds : List (List Char)) (parts : List (List Char × List Char × List Char))
      (k : Nat) (acc : List Char),
      ds.map processDoc = parts.map some →
      cleanReferencesGo ds k acc = some (acc ++ blocksFrom k parts) := by
  intro ds
  induction ds with
  | nil =>
    intro parts k acc h
    cases parts with
    | nil =>
      show some acc = some (acc ++ [])
      rw [List.append_nil]
    | cons p ps => simp at h
  | cons d ds' ih =>
    intro parts k acc h
    cases parts with
    | nil => simp at h
    | cons p ps =>
      simp only [List.map_cons] at h
      injection h with h1 h2
      obtain ⟨cc, fn, pg⟩ := p
      show (match processDoc d with
        | none => none
        | some (cc, fn, pg) =>
          cleanReferencesGo ds' (k + 1) (acc ++ refBlock k cc fn pg)) = _
      rw [h1]
      show cleanReferencesGo ds' (k + 1) (acc ++ refBlock k cc fn pg) = _
      rw [ih ps (k + 1) (acc ++ refBlock k cc fn pg) h2]
      show some ((acc ++ refBlock k cc fn pg) ++ blocksFrom (k + 1) ps) =
        some (acc ++ (refBlock k cc fn pg ++ blocksFrom (k + 1) ps))
      rw [List.append_assoc]

theorem cleanReferencesGo_none :
    ∀ (ds : List (List Char)) (k : Nat) (acc : List Char) (d : List Char),
      d ∈ ds → processDoc d = none → cleanReferencesGo ds k acc = none := by
  intro ds
  induction ds with
  | nil =>
    intro k acc d hd _
    exact absurd hd (List.not_mem_nil d)
  | cons d0 ds' ih =>
    intro k acc d hd hfail
    rcases List.mem_cons.mp hd with h1 | h2
    · show (match processDoc d0 with
        | none => none
        | some (cc, fn, pg) =>
          cleanReferencesGo ds' (k + 1) (acc ++ refBlock k cc fn pg)) = none
      rw [← h1, hfail]
    · cases h0 : processDoc d0 with
      | none =>
        show (match processDoc d0 with
          | none => none
          | some (cc, fn, pg) =>
            cleanReferencesGo ds' (k + 1) (acc ++ refBlock k cc fn pg)) = none
        rw [h0]
      | some trip =>
        obtain ⟨cc, fn, pg⟩ := trip
        show (match processDoc d0 with
          | none => none
          | some (cc, fn, pg) =>
            cleanReferencesGo ds' (k + 1) (acc ++ refBlock k cc fn pg)) = none
        rw [h0]
        exact ih (k + 1) (acc ++ refBlock k cc fn pg) d h2 hfail

theorem fixChars_no_elem : ∀ s, occursSub pElem (fixChars s) = false := by
  intro s
  have e2 := occursSub_replaceAll_self pElem ['∈'] (by decide) (by decide) (by decide)
    (replaceAll pDash ['-'] s).length (replaceAll pDash ['-'] s) le_rfl
  have e3 := occursSub_replaceAll_other pTimes ['×'] pElem (by decide) (by decide)
    (by decide) _ _ le_rfl e2
  have e4 := occursSub_replaceAll_other pFi ['f', 'i'] pElem (by decide) (by decide)
    (by decide) _ _ le_rfl e3
  have e5 := occursSub_replaceAll_other pElem ['∈'] pElem (by decide) (by decide)
    (by decide) _ _ le_rfl e4
  have e6 := occursSub_replaceAll_other pDot ['·'] pElem (by decide) (by decide)
    (by decide) _ _ le_rfl e5
  have e7 := occursSub_replaceAll_other pFl ['f', 'l'] pElem (by decide) (by decide)
    (by decide) _ _ le_rfl e6
  exact e7

theorem noC2_replaceAll (p r x : List Char) (hr : ('Â' : Char) ∉ r)
    (hx : ∀ c ∈ x, c ≠ 'Â') : ∀ c ∈ replaceAll p r x, c ≠ 'Â' := by
  intro c hc hEq
  rcases mem_replaceAll p r x.length x c le_rfl hc with h1 | h2
  · exact hx c h1 hEq
  · rw [hEq] at h2
    exact hr h2

/-- C1: for every sequence of records each of which the per-record loop
body processes successfully (the spec's well-formed records), the
formatter's output is exactly the concatenation, in input order, of one
block per record of the form `Reference {index}:\n{cleanedContent}\n\n`
`Filename: {filename} | Page number: {pageNumber} | [View PDF]({viewUrl})\n\n`,
with the index running sequentially from 1 to N with no gaps. -/
theorem clean_references_blocks :
    ∀ (docs : List (List Char)) (parts : List (List Char × List Char × List Char)),
      docs.map (fun d => processDoc (d ++ "\n\n".data)) = parts.map some →
      clean_references docs = some (blocksFrom 1 parts) := by
  intro docs parts h
  show cleanReferencesGo (docs.map fun d => d ++ "\n\n".data) 1 [] = _
  have h' : (docs.map fun d => d ++ "\n\n".data).map processDoc = parts.map some := by
    rw [List.map_map]
    exact h
  rw [cleanReferencesGo_blocks _ parts 1 [] h']
  rw [List.nil_append]

/-- C1 witness: two concrete records, blocks indexed 1 and 2. -/
theorem clean_references_blocks_wit :
    (["page_content=Hello World metadata=\x7b'source': 'docs/paper1.pdf', 'page': 3\x7d".data,
      "page_content=Second doc metadata=\x7b'source': '/tmp/b.pdf', 'page': 12\x7d".data].map
        (fun d => processDoc (d ++ "\n\n".data)) =
      [("Hello World".data, "paper1.pdf".data, "3".data),
       ("Second doc".data, "b.pdf".data, "12".data)].map some) ∧
    clean_references
      ["page_content=Hello World metadata=\x7b'source': 'docs/paper1.pdf', 'page': 3\x7d".data,
       "page_content=Second doc metadata=\x7b'source': '/tmp/b.pdf', 'page': 12\x7d".data] =
      some (blocksFrom 1
        [("Hello World".data, "paper1.pdf".data, "3".data),
         ("Second doc".data, "b.pdf".data, "12".data)]) :=
  ⟨by decide, clean_references_blocks _ _ (by decide)⟩

/-- C2: if any record of the input has a textual form that does not match
the `page_content=`/` metadata=` pattern, the whole formatting call fails
(the `AttributeError` on `.groups()` propagates) and no partial output is
returned. -/
theorem clean_references_malformed_aborts :
    ∀ (docs : List (List Char)) (d : List Char), d ∈ docs →
      matchDoc (d ++ "\n\n".data) = none → clean_references docs = none := by
  intro docs d hd hmatch
  have hfail : processDoc (d ++ "\n\n".data) = none := by
    unfold processDoc
    rw [hmatch]
  show cleanReferencesGo (docs.map fun x => x ++ "\n\n".data) 1 [] = none
  exact cleanReferencesGo_none _ 1 [] (d ++ "\n\n".data)
    (List.mem_map_of_mem _ hd) hfail

/-- C2 witness: a well-formed record followed by a malformed one; the call
returns nothing at all. -/
theorem clean_references_malformed_aborts_wit :
    ("garbage".data ∈
      ["page_content=Hello World metadata=\x7b'source': 'docs/paper1.pdf', 'page': 3\x7d".data,
       "garbage".data]) ∧
    matchDoc ("garbage".data ++ "\n\n".data) = none ∧
    clean_references
      ["page_content=Hello World metadata=\x7b'source': 'docs/paper1.pdf', 'page': 3\x7d".data,
       "garbage".data] = none :=
  ⟨by decide, by decide, clean_references_malformed_aborts _ "garbage".data (by decide) (by decide)⟩

/-- C3: when the regex matches, the content/metadata split happens at the
first occurrence of the literal ` metadata=`-brace marker: the content
group is everything between `page_content=` and that occurrence, no
earlier position of the content carries the marker, and the metadata group
starts with the marker.  The hypothesis restricts to records containing
the marker more than once, as the claim is stated. -/
theorem match_doc_first_marker :
    ∀ d content m, matchDoc d = some (content, m) → 2 ≤ countSub metaMarker d →
      ∃ rest, d = pageContentLit ++ content ++ rest ∧
        metaMarker.isPrefixOf rest = true ∧
        (∃ mm, m = metaMarker ++ mm) ∧
        ∀ j, j < content.length →
          metaMarker.isPrefixOf ((content ++ rest).drop j) = false := by
  intro d content m h _
  unfold matchDoc at h
  by_cases h1 : pageContentLit.isPrefixOf d = true
  · rw [if_pos h1] at h
    cases h2 : findSplit (d.drop 13) with
    | none =>
      rw [h2] at h
      exact Option.noConfusion h
    | some p =>
      obtain ⟨c0, rest0⟩ := p
      rw [h2] at h
      have hpair := Option.some.inj h
      have hc : content = c0 := ((Prod.mk.injEq _ _ _ _).mp hpair).1.symm
      have hm : m = metaMarker ++
          upToLastBrace ((rest0.drop 11).takeWhile (fun c => c ≠ '\n')) :=
        ((Prod.mk.injEq _ _ _ _).mp hpair).2.symm
      subst hc
      obtain ⟨hsplit, hcan, hnl, hpos⟩ := findSplit_sound (d.drop 13) content rest0 h2
      obtain ⟨tpc, htpc⟩ := List.isPrefixOf_iff_prefix.mp h1
      have hdrop13 : d.drop 13 = tpc := by
        rw [← htpc]
        show (pageContentLit ++ tpc).drop pageContentLit.length = tpc
        exact List.drop_left _ _
      rw [hdrop13] at hsplit
      refine ⟨rest0, ?_, ?_, ⟨_, hm⟩, ?_⟩
      · rw [← htpc, hsplit, List.append_assoc]
      · have hcan' := hcan
        unfold canMatchAt at hcan'
        rw [Bool.and_eq_true] at hcan'
        exact hcan'.1
      · intro j hj
        rw [List.drop_append_of_le_length (le_of_lt hj)]
        exact no_marker_before content rest0 hnl hcan hpos j hj
  · rw [if_neg h1] at h
    exact Option.noConfusion h

/-- C3 witness: a record whose content segment is followed by two
occurrences of the marker; the split separates at the first one. -/
theorem match_doc_first_marker_wit :
    (matchDoc
      "page_content=abc metadata=\x7bx\x7d metadata=\x7b'source': 's.pdf', 'page': 1\x7d\n\n".data =
      some ("abc".data,
        " metadata=\x7bx\x7d metadata=\x7b'source': 's.pdf', 'page': 1\x7d".data)) ∧
    2 ≤ countSub metaMarker
      "page_content=abc metadata=\x7bx\x7d metadata=\x7b'source': 's.pdf', 'page': 1\x7d\n\n".data ∧
    ∃ rest,
      "page_content=abc metadata=\x7bx\x7d metadata=\x7b'source': 's.pdf', 'page': 1\x7d\n\n".data =
        pageContentLit ++ "abc".data ++ rest ∧
      metaMarker.isPrefixOf rest = true ∧
      (∃ mm, " metadata=\x7bx\x7d metadata=\x7b'source': 's.pdf', 'page': 1\x7d".data =
        metaMarker ++ mm) ∧
      ∀ j, j < ("abc".data : List Char).length →
        metaMarker.isPrefixOf (("abc".data ++ rest).drop j) = false :=
  ⟨by decide, by decide, match_doc_first_marker _ _ _ (by decide) (by decide)⟩

/-- C4 counterexample: the byte re-decode step of line 116 is not
abort-free.  The `latin1` encode half uses the default strict handler, so
a character outside Latin-1 (here the element-of symbol reaching the step
through a unicode escape in the content) raises and aborts the whole
formatting call instead of being silently dropped. -/
theorem redecode_step_aborts_nonlatin1 :
    redecodeStep ['∈'] = none ∧
    clean_references
      ["page_content=\\u2208 metadata=\x7b'source': 'a.pdf', 'page': 1\x7d".data] = none := by
  exact ⟨by decide, by decide⟩

/-- C4 as amended: the re-decode step never aborts on strings whose
characters all lie in Latin-1 — there the strict encode succeeds and the
UTF-8 decode half silently drops every invalid byte sequence — but a
character above U+00FF makes the step (and the call) fail. -/
theorem redecode_latin1_total :
    ∀ s : List Char, (∀ c ∈ s, c.toNat ≤ 255) → ∃ t, redecodeStep s = some t := by
  intro s h
  obtain ⟨bs, hbs⟩ := latin1Encode_total s h
  refine ⟨utf8DecodeIgnore bs, ?_⟩
  unfold redecodeStep
  rw [hbs]
  rfl

/-- C4 witness: a Latin-1 character whose bytes are not valid UTF-8; the
step succeeds, silently dropping it. -/
theorem redecode_latin1_total_wit :
    (∀ c ∈ (['é'] : List Char), c.toNat ≤ 255) ∧
      ∃ t, redecodeStep ['é'] = some t :=
  ⟨by decide, redecode_latin1_total ['é'] (by decide)⟩

/-- C5: for every record the loop body accepts, the filename of the block
is the basename of the metadata `source` (it contains no slash, whatever
the path depth), and the emitted view URL is exactly the fixed server base
URL, a slash, and that same basename. -/
theorem view_url_uses_basename :
    ∀ (doc cc fn pg : List Char), processDoc doc = some (cc, fn, pg) →
      ∃ src, extractSource doc = some src ∧ fn = basename src ∧
        (∀ x ∈ fn, x ≠ '/') ∧
        ∀ k, refBlock k cc fn pg =
          "Reference ".data ++ natToChars k ++ ":\n".data ++ cc ++ "\n\n".data ++
          "Filename: ".data ++ basename src ++ " | ".data ++
          "Page number: ".data ++ pg ++ " | ".data ++
          "[View PDF](".data ++ serverUrl ++ "/".data ++ basename src ++ ")".data ++
          "\n\n".data := by
  intro doc cc fn pg h
  unfold processDoc at h
  split at h
  · exact Option.noConfusion h
  · rename_i content g2 heq1
    split at h
    · exact Option.noConfusion h
    · rename_i mt heq2
      split at h
      · exact Option.noConfusion h
      · rename_i md heq3
        split at h
        · exact Option.noConfusion h
        · rename_i c6 heq4
          split at h
          · rename_i s heq5
            split at h
            · rename_i pv heq6
              have hh := Option.some.inj h
              have hcc : c6 = cc := congrArg Prod.fst hh
              have hfn : basename s = fn := congrArg Prod.fst (congrArg Prod.snd hh)
              have hpg : pyDisplay pv = pg := congrArg Prod.snd (congrArg Prod.snd hh)
              refine ⟨s, ?_, hfn.symm, ?_, ?_⟩
              · simp only [extractSource, docDict, heq1, heq2, heq3, heq5]
              · intro x hx
                rw [← hfn] at hx
                have hx2 := List.mem_reverse.mp hx
                have hx3 := List.mem_takeWhile_imp hx2
                exact of_decide_eq_true hx3
              · intro k
                rw [← hfn]
                exact rfl
            · exact Option.noConfusion h
          · exact Option.noConfusion h

/-- C5 witness: a record with a two-level path in `source`. -/
theorem view_url_uses_basename_wit :
    (processDoc
      "page_content=Hello World metadata=\x7b'source': 'docs/paper1.pdf', 'page': 3\x7d\n\n".data =
      some ("Hello World".data, "paper1.pdf".data, "3".data)) ∧
    ∃ src, extractSource
        "page_content=Hello World metadata=\x7b'source': 'docs/paper1.pdf', 'page': 3\x7d\n\n".data =
        some src ∧
      "paper1.pdf".data = basename src ∧
      (∀ x ∈ ("paper1.pdf".data : List Char), x ≠ '/') ∧
      ∀ k, refBlock k "Hello World".data "paper1.pdf".data "3".data =
        "Reference ".data ++ natToChars k ++ ":\n".data ++ "Hello World".data ++ "\n\n".data ++
        "Filename: ".data ++ basename src ++ " | ".data ++
        "Page number: ".data ++ "3".data ++ " | ".data ++
        "[View PDF](".data ++ serverUrl ++ "/".data ++ basename src ++ ")".data ++
        "\n\n".data :=
  ⟨by decide, view_url_uses_basename _ _ _ _ (by decide)⟩

/-- C6: the empty input sequence yields the empty output string. -/
theorem clean_references_empty : clean_references [] = some [] := rfl

/-- C7 counterexample: the substitution table is not idempotent.  On
`['Â','Â','·']` one application yields `['Â','·']` (the replacement `·` of
the middle-dot rule lands next to the remaining `Â` and forms a fresh
occurrence of that rule's own pattern), and a second application collapses
it further to `['·']`. -/
theorem fix_chars_not_idempotent :
    fixChars (fixChars ['Â', 'Â', '·']) ≠ fixChars ['Â', 'Â', '·'] := by decide

/-- C7 as amended: the table does rewrite the corrupted element-of
sequence — that exact sequence maps to `∈` and no occurrence of it ever
survives an application of the table — and the table is idempotent on
every string that does not contain the character `Â` (U+00C2); full
idempotence fails, as the counterexample shows. -/
theorem fix_chars_elem_and_partial_idem :
    (∀ s, occursSub pElem (fixChars s) = false) ∧
    fixChars pElem = ['∈'] ∧
    ∀ s : List Char, (∀ c ∈ s, c ≠ 'Â') → fixChars (fixChars s) = fixChars s := by
  refine ⟨fixChars_no_elem, by decide, ?_⟩
  intro s hA
  have hA1 := noC2_replaceAll pDash ['-'] s (by decide) hA
  have hA2 := noC2_replaceAll pElem ['∈'] _ (by decide) hA1
  have hA3 := noC2_replaceAll pTimes ['×'] _ (by decide) hA2
  have hA4 := noC2_replaceAll pFi ['f', 'i'] _ (by decide) hA3
  have hA5 := noC2_replaceAll pElem ['∈'] _ (by decide) hA4
  have hA6 := noC2_replaceAll pDot ['·'] _ (by decide) hA5
  have hA7 := noC2_replaceAll pFl ['f', 'l'] _ (by decide) hA6
  have d1 := occursSub_replaceAll_self pDash ['-'] (by decide) (by decide) (by decide)
    s.length s le_rfl
  have d2 := occursSub_replaceAll_other pElem ['∈'] pDash (by decide) (by decide)
    (by decide) _ _ le_rfl d1
  have d3 := occursSub_replaceAll_other pTimes ['×'] pDash (by decide) (by decide)
    (by decide) _ _ le_rfl d2
  have d4 := occursSub_replaceAll_other pFi ['f', 'i'] pDash (by decide) (by decide)
    (by decide) _ _ le_rfl d3
  have d5 := occursSub_replaceAll_other pElem ['∈'] pDash (by decide) (by decide)
    (by decide) _ _ le_rfl d4
  have d6 := occursSub_replaceAll_other pDot ['·'] pDash (by decide) (by decide)
    (by decide) _ _ le_rfl d5
  have d7 := occursSub_replaceAll_other pFl ['f', 'l'] pDash (by decide) (by decide)
    (by decide) _ _ le_rfl d6
  have t3 := occursSub_replaceAll_self pTimes ['×'] (by decide) (by decide) (by decide)
    (replaceAll pElem ['∈'] (replaceAll pDash ['-'] s)).length
    (replaceAll pElem ['∈'] (replaceAll pDash ['-'] s)) le_rfl
  have t4 := occursSub_replaceAll_other pFi ['f', 'i'] pTimes (by decide) (by decide)
    (by decide) _ _ le_rfl t3
  have t5 := occursSub_replaceAll_other pElem ['∈'] pTimes (by decide) (by decide)
    (by decide) _ _ le_rfl t4
  have t6 := occursSub_replaceAll_other pDot ['·'] pTimes (by decide) (by decide)
    (by decide) _ _ le_rfl t5
  have t7 := occursSub_replaceAll_other pFl ['f', 'l'] pTimes (by decide) (by decide)
    (by decide) _ _ le_rfl t6
  have f4 := occursSub_replaceAll_self pFi ['f', 'i'] (by decide) (by decide) (by decide)
    (replaceAll pTimes ['×'] (replaceAll pElem ['∈'] (replaceAll pDash ['-'] s))).length
    (replaceAll pTimes ['×'] (replaceAll pElem ['∈'] (replaceAll pDash ['-'] s))) le_rfl
  have f5 := occursSub_replaceAll_other pElem ['∈'] pFi (by decide) (by decide)
    (by decide) _ _ le_rfl f4
  have f6 := occursSub_replaceAll_other pDot ['·'] pFi (by decide) (by decide)
    (by decide) _ _ le_rfl f5
  have f7 := occursSub_replaceAll_other pFl ['f', 'l'] pFi (by decide) (by decide)
    (by decide) _ _ le_rfl f6
  have l7 := occursSub_replaceAll_self pFl ['f', 'l'] (by decide) (by decide) (by decide)
    (replaceAll pDot ['·'] (replaceAll pElem ['∈'] (replaceAll pFi ['f', 'i']
      (replaceAll pTimes ['×'] (replaceAll pElem ['∈']
        (replaceAll pDash ['-'] s)))))).length
    (replaceAll pDot ['·'] (replaceAll pElem ['∈'] (replaceAll pFi ['f', 'i']
      (replaceAll pTimes ['×'] (replaceAll pElem ['∈']
        (replaceAll pDash ['-'] s)))))) le_rfl
  have hElemT : occursSub pElem (fixChars s) = false := fixChars_no_elem s
  have hDot : occursSub pDot (fixChars s) = false := by
    cases hb : occursSub pDot (fixChars s) with
    | false => rfl
    | true =>
      exact absurd rfl (hA7 'Â' (occursSub_head_mem 'Â' ['·'] (fixChars s) hb))
  have i1 : replaceAll pDash ['-'] (fixChars s) = fixChars s :=
    replaceAll_of_not_occurs pDash ['-'] (fixChars s).length (fixChars s) le_rfl d7
  have i2 : replaceAll pElem ['∈'] (fixChars s) = fixChars s :=
    replaceAll_of_not_occurs pElem ['∈'] (fixChars s).length (fixChars s) le_rfl hElemT
  have i3 : replaceAll pTimes ['×'] (fixChars s) = fixChars s :=
    replaceAll_of_not_occurs pTimes ['×'] (fixChars s).length (fixChars s) le_rfl t7
  have i4 : replaceAll pFi ['f', 'i'] (fixChars s) = fixChars s :=
    replaceAll_of_not_occurs pFi ['f', 'i'] (fixChars s).length (fixChars s) le_rfl f7
  have i6 : replaceAll pDot ['·'] (fixChars s) = fixChars s :=
    replaceAll_of_not_occurs pDot ['·'] (fixChars s).length (fixChars s) le_rfl hDot
  have i7 : replaceAll pFl ['f', 'l'] (fixChars s) = fixChars s :=
    replaceAll_of_not_occurs pFl ['f', 'l'] (fixChars s).length (fixChars s) le_rfl l7
  show replaceAll pFl ['f', 'l'] (replaceAll pDot ['·'] (replaceAll pElem ['∈']
    (replaceAll pFi ['f', 'i'] (replaceAll pTimes ['×'] (replaceAll pElem ['∈']
      (replaceAll pDash ['-'] (fixChars s))))))) = fixChars s
  rw [i1, i2, i3, i4, i2, i6, i7]

/-- C7 witness: a string holding the corrupted element-of sequence and no
`Â`; the conditional idempotence applies to it. -/
theorem fix_chars_elem_and_partial_idem_wit :
    (∀ c ∈ (['â', '\u0088', '\u0088', 'x'] : List Char), c ≠ 'Â') ∧
      fixChars (fixChars ['â', '\u0088', '\u0088', 'x']) =
        fixChars ['â', '\u0088', '\u0088', 'x'] :=
  ⟨by decide, fix_chars_elem_and_partial_idem.2.2 _ (by decide)⟩

/-- C8: the whitespace-collapsing step of line 110 (replace every run of
Python whitespace by a single space, then strip) is idempotent. -/
theorem collapse_ws_idempotent :
    ∀ s : List Char, collapseWs (collapseWs s) = collapseWs s := by
  intro s
  have hWsOnly : ∀ c ∈ subWs s, pyIsSpace c = true → c = ' ' :=
    wsOnly_subWs s.length s le_rfl
  have hGood : goodRuns (subWs s) = true := goodRuns_subWs s.length s le_rfl
  have hGoodW : goodRuns ((subWs s).dropWhile pyIsSpace) = true :=
    goodRuns_dropWhile pyIsSpace (subWs s) hGood
  have hGoodV : goodRuns (dropTrailingWs ((subWs s).dropWhile pyIsSpace)) = true :=
    goodRuns_dTW _ hGoodW
  have hWsOnlyV : ∀ c ∈ dropTrailingWs ((subWs s).dropWhile pyIsSpace),
      pyIsSpace c = true → c = ' ' := by
    intro c hc hws
    exact hWsOnly c (mem_dropWhile_sub pyIsSpace (subWs s) c (mem_dTW _ c hc)) hws
  have hHeadV : dropTrailingWs ((subWs s).dropWhile pyIsSpace) = [] ∨
      ∃ d u', dropTrailingWs ((subWs s).dropWhile pyIsSpace) = d :: u' ∧
        pyIsSpace d = false := by
    rcases dropWhile_cases pyIsSpace (subWs s) with hw | ⟨d, u', hw, hd⟩
    · rw [hw]
      exact Or.inl rfl
    · rw [hw]
      rcases dTW_shape d u' with hsh | hsh
      · exact Or.inl hsh
      · exact Or.inr ⟨d, dropTrailingWs u', hsh, hd⟩
  have hsub : subWs (dropTrailingWs ((subWs s).dropWhile pyIsSpace)) =
      dropTrailingWs ((subWs s).dropWhile pyIsSpace) :=
    subWs_id (dropTrailingWs ((subWs s).dropWhile pyIsSpace)).length _ le_rfl
      hWsOnlyV hGoodV
  have hdw : (dropTrailingWs ((subWs s).dropWhile pyIsSpace)).dropWhile pyIsSpace =
      dropTrailingWs ((subWs s).dropWhile pyIsSpace) := by
    rcases hHeadV with h0 | ⟨d, u', heq, hd⟩
    · rw [h0]
      rfl
    · rw [heq]
      exact dropWhile_id_of_head hd
  show pyStrip (subWs (dropTrailingWs ((subWs s).dropWhile pyIsSpace))) =
    dropTrailingWs ((subWs s).dropWhile pyIsSpace)
  rw [hsub]
  show dropTrailingWs ((dropTrailingWs ((subWs s).dropWhile pyIsSpace)).dropWhile
    pyIsSpace) = dropTrailingWs ((subWs s).dropWhile pyIsSpace)
  rw [hdw, dTW_idem]

/-- C9: the formatter is a pure function of its argument list's value: it
reads nothing else from the heap and writes nothing, so two calls on equal
input lists — in arbitrarily different heaps — return equal outputs, equal
to the pure function of the value. -/
theorem clean_references_pure :
    ∀ (h1 h2 : PyHeap) (r1 r2 : Nat) (v : List (List Char)),
      readCell h1 r1 = some v → readCell h2 r2 = some v →
      (clean_references_st h1 r1).2 = (clean_references_st h2 r2).2 ∧
      (clean_references_st h1 r1).2 = clean_references v := by
  intro h1 h2 r1 r2 v e1 e2
  unfold clean_references_st
  rw [e1, e2]
  exact ⟨rfl, rfl⟩

/-- C9 witness: the same list value read out of two different heaps at
different cells. -/
theorem clean_references_pure_wit :
    readCell (PyHeap.mk [[]]) 0 = some [] ∧
    readCell (PyHeap.mk [["x".data], []]) 1 = some [] ∧
    ((clean_references_st (PyHeap.mk [[]]) 0).2 =
      (clean_references_st (PyHeap.mk [["x".data], []]) 1).2 ∧
     (clean_references_st (PyHeap.mk [[]]) 0).2 = clean_references []) :=
  ⟨rfl, rfl, clean_references_pure _ _ _ _ [] rfl rfl⟩

/-- C10: the caller's list object is never mutated: after a call (whether
it produces output or fails), the argument cell of the heap still holds
the same elements in the same order; the function only allocates a fresh
list for its stringified records. -/
theorem clean_references_no_mutation :
    ∀ (h : PyHeap) (r : Nat) (v : List (List Char)),
      readCell h r = some v → readCell (clean_references_st h r).1 r = some v := by
  intro h r v e
  unfold clean_references_st
  rw [e]
  show readCell (allocCell h (v.map (fun d => d ++ "\n\n".data))).1 r = some v
  have hlt : r < h.cells.length := (List.getElem?_eq_some.mp e).1
  show (h.cells ++ [v.map (fun d => d ++ "\n\n".data)])[r]? = some v
  rw [List.getElem?_append_left hlt]
  exact e

/-- C10 witness: a heap with one list holding one malformed record; the
call fails yet the cell is untouched. -/
theorem clean_references_no_mutation_wit :
    readCell (PyHeap.mk [["x".data]]) 0 = some ["x".data] ∧
      readCell (clean_references_st (PyHeap.mk [["x".data]]) 0).1 0 = some ["x".data] :=
  ⟨rfl, clean_references_no_mutation _ 0 ["x".data] rfl⟩

end RagGpt
